import Mathlib

set_option maxHeartbeats 1000000

/-!
Verification development for the html-knitter tool (Go).

The tool parses an HTML file, walks the document tree once
(`processNode`), optionally removing JavaScript (script elements,
`rel=preload as=script` links, inline event-handler attributes), and
replaces stylesheet `<link>` elements by inline `<style>` elements whose
CSS has had `@font-face` URL references rewritten to base64 data URIs
(`embedCSS`).  One variant of the source also inlines image `src`
attributes (`embedImage`) with a per-run dedup set.

The development below shallowly embeds the relevant parts of the source:
the document tree becomes a rose tree, pointer surgery becomes list
surgery on a parent's child list, the filesystem becomes a partial map
from paths to file text, and the Go standard-library helpers used by the
source (`filepath.Clean`, `filepath.Join`, `filepath.Ext`,
`strings.Replace`, `base64.StdEncoding`) are given executable models.
-/

namespace HtmlKnitter

/-! ### Models of Go `path/filepath` helpers (Unix separator rules) -/

/-- Split a character list on `/`, like `strings.Split`; the result is
never empty. -/
def splitSlash : List Char → List (List Char)
  | [] => [[]]
  | c :: rest =>
    if c = '/' then [] :: splitSlash rest
    else
      match splitSlash rest with
      | comp :: comps => (c :: comp) :: comps
      | [] => [[c]]

/-- One step of the lexical simplification performed by Go
`filepath.Clean`: drop empty and `.` components, let `..` cancel a
previous real component (except past the root, or past leading `..` in a
relative path).  The accumulator holds components in reverse order. -/
def cleanFold (rooted : Bool) (acc : List (List Char)) (comp : List Char) :
    List (List Char) :=
  if comp = [] ∨ comp = ['.'] then acc
  else if comp = ['.', '.'] then
    match acc with
    | [] => if rooted then [] else [['.', '.']]
    | a :: rest => if a = ['.', '.'] then comp :: acc else rest
  else comp :: acc

/-- Whether the path is absolute. -/
def isRooted : List Char → Bool
  | c :: _ => c = '/'
  | [] => false

/-- Model of Go `filepath.Clean` on Unix paths (character lists). -/
def pathCleanList (p : List Char) : List Char :=
  if p = [] then ['.']
  else
    if isRooted p then
      '/' :: List.intercalate ['/'] (((splitSlash p).foldl (cleanFold true) []).reverse)
    else
      if List.intercalate ['/'] (((splitSlash p).foldl (cleanFold false) []).reverse) = []
      then ['.']
      else List.intercalate ['/'] (((splitSlash p).foldl (cleanFold false) []).reverse)

/-- Model of Go `filepath.Clean` on Unix paths. -/
def pathClean (p : String) : String := String.mk (pathCleanList p.data)

/-- Model of Go `filepath.Join` on two elements: drop empty elements,
join the rest with a separator, and `Clean` the result. -/
def filepathJoin (a b : String) : String :=
  if a = "" ∧ b = "" then ""
  else if a = "" then pathClean b
  else if b = "" then pathClean a
  else String.mk (pathCleanList (a.data ++ '/' :: b.data))

/-- Helper for `filepathExt`: scan the reversed character list; stop at a
path separator with no extension, or return the suffix from the last
dot.  `acc` holds the already-scanned suffix in forward order. -/
def extScan : List Char → List Char → Option (List Char)
  | [], _ => none
  | c :: rest, acc =>
    if c = '/' then none
    else if c = '.' then some (c :: acc)
    else extScan rest (c :: acc)

/-- Model of Go `filepath.Ext`: the suffix beginning at the final dot in
the final path element, or `""` when there is none. -/
def filepathExt (p : String) : String :=
  match extScan p.data.reverse [] with
  | some cs => String.mk cs
  | none => ""

/-! ### Model of Go `encoding/base64` `StdEncoding` (RFC 4648, padded) -/

/-- The standard base64 alphabet. -/
def base64Chars : List Char :=
  ("ABCDEFGHIJKLMNOPQRSTUVWXYZabcdefghijklmnopqrstuvwxyz0123456789+/").data

/-- Character for a six-bit value. -/
def sextetChar (n : Nat) : Char := base64Chars.getD n 'A'

/-- Inverse lookup for the base64 alphabet. -/
def charSextet (c : Char) : Nat := base64Chars.indexOf c

/-- Standard base64 encoding of a byte list, three bytes to four
characters, padded with `=`. -/
def b64EncodeList : List Nat → List Char
  | [] => []
  | [b1] => [sextetChar (b1 / 4), sextetChar (b1 % 4 * 16), '=', '=']
  | [b1, b2] =>
    [sextetChar (b1 / 4), sextetChar (b1 % 4 * 16 + b2 / 16),
     sextetChar (b2 % 16 * 4), '=']
  | b1 :: b2 :: b3 :: rest =>
    sextetChar (b1 / 4) :: sextetChar (b1 % 4 * 16 + b2 / 16) ::
    sextetChar (b2 % 16 * 4 + b3 / 64) :: sextetChar (b3 % 64) ::
    b64EncodeList rest

/-- Model of Go `base64.StdEncoding.EncodeToString`. -/
def b64Encode (bs : List Nat) : String := String.mk (b64EncodeList bs)

/-- Standard base64 decoding, the mathematical inverse used to state the
round-trip property. -/
def b64DecodeList : List Char → List Nat
  | c1 :: c2 :: c3 :: c4 :: rest =>
    let s1 := charSextet c1
    let s2 := charSextet c2
    if c3 = '=' then [s1 * 4 + s2 / 16]
    else
      let s3 := charSextet c3
      if c4 = '=' then [s1 * 4 + s2 / 16, s2 % 16 * 16 + s3 / 4]
      else
        (s1 * 4 + s2 / 16) :: (s2 % 16 * 16 + s3 / 4) ::
        (s3 % 4 * 64 + charSextet c4) :: b64DecodeList rest
  | _ => []

/-- Bytes of a file's text under the model that file contents are stored
as strings of code points below 256 (Go reads raw bytes). -/
def strBytes (s : String) : List Nat := s.data.map Char.toNat

/-! ### Model of Go `strings.Replace(s, old, new, -1)`

All call sites in the source pass a nonempty `old` (a path token that
begins with the characters of a marker such as `/_next/`), so the model
covers nonempty patterns; left-to-right, non-overlapping. -/

/-- Replace every non-overlapping occurrence of `pat` in the subject,
scanning left to right. -/
def replaceAllList (pat rep : List Char) : List Char → List Char
  | [] => []
  | c :: rest =>
    if pat ≠ [] ∧ pat.isPrefixOf (c :: rest) then
      rep ++ replaceAllList pat rep (rest.drop (pat.length - 1))
    else
      c :: replaceAllList pat rep rest
termination_by s => s.length
decreasing_by
  · simp only [List.length_drop, List.length_cons]
    omega
  · simp only [List.length_cons]
    omega

/-- String wrapper for `replaceAllList`. -/
def stringReplaceAll (s pat rep : String) : String :=
  String.mk (replaceAllList pat.data rep.data s.data)

/-! ### Models of the two regular expressions

`fontFaceRegex  = @font-face\s*{[^}]*}` and
`fontUrlRegex   = url\(quote?(/_next/[^quotes-parens]+)quote?\)`
(quotes meaning an optional single or double quote).  Both patterns are
deterministic: the greedy character classes exclude their follow
characters, so leftmost matching needs no backtracking and each
`FindAll` is a left-to-right scan. -/

theorem dropWhileLenLe {α : Type} (p : α → Bool) :
    ∀ l : List α, (l.dropWhile p).length ≤ l.length := by
  intro l
  induction l with
  | nil => simp
  | cons a t ih =>
    simp only [List.dropWhile]
    split
    · simp only [List.length_cons]
      omega
    · simp

/-- Go regexp `\s`: space, tab, newline, form feed, carriage return. -/
def isSpaceGo (c : Char) : Bool :=
  c = ' ' ∨ c = '\t' ∨ c = '\n' ∨ c = '\x0c' ∨ c = '\r'

/-- The literal `@font-face`. -/
def fontFaceKw : List Char := ("@font-face").data

/-- Try to match `@font-face\s*{[^}]*}` at the head of `s`; on success
return the matched substring and the remaining input. -/
def matchFontFaceAt (s : List Char) : Option (List Char × List Char) :=
  if fontFaceKw.isPrefixOf s then
    match (s.drop fontFaceKw.length).dropWhile isSpaceGo with
    | '{' :: t3 =>
      match t3.dropWhile (fun c => c ≠ '}') with
      | '}' :: t5 =>
        some (fontFaceKw ++ (s.drop fontFaceKw.length).takeWhile isSpaceGo ++
          '{' :: (t3.takeWhile (fun c => c ≠ '}') ++ ['}']), t5)
      | _ => none
    | _ => none
  else none

theorem matchFontFaceAt_rest_lt {s m r : List Char}
    (h : matchFontFaceAt s = some (m, r)) : r.length < s.length := by
  unfold matchFontFaceAt at h
  split at h
  case isFalse => exact absurd h (by simp)
  case isTrue hpre =>
    have hlen : fontFaceKw.length ≤ s.length :=
      ((List.isPrefixOf_iff_prefix.mp hpre).length_le)
    have h10 : 10 ≤ s.length := by simpa [fontFaceKw] using hlen
    have h1 : (s.drop fontFaceKw.length).length = s.length - 10 := by
      simp [List.length_drop, fontFaceKw]
    have h2 := dropWhileLenLe isSpaceGo (s.drop fontFaceKw.length)
    split at h
    case h_2 => exact absurd h (by simp)
    case h_1 t3 heq =>
      have h3 : t3.length + 1 = ((s.drop fontFaceKw.length).dropWhile isSpaceGo).length := by
        have := congrArg List.length heq
        simp only [List.length_cons] at this
        omega
      have h4 := dropWhileLenLe (fun c => decide (c ≠ '}')) t3
      split at h
      case h_2 => exact absurd h (by simp)
      case h_1 t5 heq2 =>
        have h5 : t5.length + 1 = (t3.dropWhile (fun c => decide (c ≠ '}'))).length := by
          have := congrArg List.length heq2
          simp only [List.length_cons] at this
          omega
        have hr : r = t5 := by
          simp only [Option.some.injEq, Prod.mk.injEq] at h
          exact h.2.symm
        rw [hr]
        omega

/-- `FindAllString` for the font-face pattern: scan left to right,
restarting after each match. -/
def findAllFontFace : List Char → List (List Char)
  | [] => []
  | c :: rest =>
    match h : matchFontFaceAt (c :: rest) with
    | some (m, r) => m :: findAllFontFace r
    | none => findAllFontFace rest
termination_by s => s.length
decreasing_by
  · exact matchFontFaceAt_rest_lt h
  · simp only [List.length_cons]
    omega

/-- The literal `url(`. -/
def urlKw : List Char := ("url(").data

/-- The marker required at the start of a captured font path. -/
def nextSlashMarker : List Char := ("/_next/").data

/-- Single or double quote. -/
def isQuote (c : Char) : Bool := c = Char.ofNat 39 ∨ c = '"'

/-- Characters excluded from the captured path: quotes and parens. -/
def isUrlStop (c : Char) : Bool :=
  c = Char.ofNat 39 ∨ c = '"' ∨ c = '(' ∨ c = ')'

/-- Consume the optional opening quote of the url pattern. -/
def stripQuote (t : List Char) : List Char :=
  match t with
  | c :: rest => if isQuote c then rest else c :: rest
  | [] => []

theorem stripQuote_length_le (t : List Char) : (stripQuote t).length ≤ t.length := by
  unfold stripQuote
  split
  · split
    · simp only [List.length_cons]
      omega
    · simp
  · simp

/-- Try to match the font-url pattern at the head of `s`; on success
return the captured group (the path token) and the input remaining after
the whole match. -/
def matchFontUrlAt (s : List Char) : Option (List Char × List Char) :=
  if urlKw.isPrefixOf s then
    if nextSlashMarker.isPrefixOf (stripQuote (s.drop urlKw.length)) then
      if ((stripQuote (s.drop urlKw.length)).drop nextSlashMarker.length).takeWhile
          (fun c => ¬ isUrlStop c) = [] then none
      else
        match ((stripQuote (s.drop urlKw.length)).drop nextSlashMarker.length).dropWhile
            (fun c => ¬ isUrlStop c) with
        | c :: t5 =>
          if c = ')' then
            some (nextSlashMarker ++
              ((stripQuote (s.drop urlKw.length)).drop nextSlashMarker.length).takeWhile
                (fun c => ¬ isUrlStop c), t5)
          else if isQuote c then
            match t5 with
            | c2 :: t6 =>
              if c2 = ')' then
                some (nextSlashMarker ++
                  ((stripQuote (s.drop urlKw.length)).drop nextSlashMarker.length).takeWhile
                    (fun c => ¬ isUrlStop c), t6)
              else none
            | [] => none
          else none
        | [] => none
    else none
  else none

theorem matchFontUrlAt_rest_lt {s g r : List Char}
    (h : matchFontUrlAt s = some (g, r)) : r.length < s.length := by
  unfold matchFontUrlAt at h
  split at h
  case isFalse => exact absurd h (by simp)
  case isTrue hpre =>
    have hlen : urlKw.length ≤ s.length :=
      ((List.isPrefixOf_iff_prefix.mp hpre).length_le)
    have h4 : 4 ≤ s.length := by simpa [urlKw] using hlen
    have h1 : (s.drop urlKw.length).length = s.length - 4 := by
      simp [List.length_drop, urlKw]
    have ht2len : (stripQuote (s.drop urlKw.length)).length ≤ s.length - 4 := by
      have := stripQuote_length_le (s.drop urlKw.length)
      omega
    split at h
    case isFalse => exact absurd h (by simp)
    case isTrue hpre2 =>
      have hm : nextSlashMarker.length ≤ (stripQuote (s.drop urlKw.length)).length :=
        ((List.isPrefixOf_iff_prefix.mp hpre2).length_le)
      have h7 : 7 ≤ (stripQuote (s.drop urlKw.length)).length := by
        simpa [nextSlashMarker] using hm
      have h3len :
          ((stripQuote (s.drop urlKw.length)).drop nextSlashMarker.length).length =
            (stripQuote (s.drop urlKw.length)).length - 7 := by
        simp [List.length_drop, nextSlashMarker]
      split at h
      case isTrue => exact absurd h (by simp)
      case isFalse hbody =>
        have hdw := dropWhileLenLe (fun c => decide (¬ isUrlStop c))
          ((stripQuote (s.drop urlKw.length)).drop nextSlashMarker.length)
        split at h
        case h_2 => exact absurd h (by simp)
        case h_1 c t5 heq =>
          have ht5 : t5.length + 1 ≤ (stripQuote (s.drop urlKw.length)).length - 7 := by
            have := congrArg List.length heq
            simp only [List.length_cons] at this
            omega
          split at h
          case isTrue =>
            have hr : r = t5 := by
              simp only [Option.some.injEq, Prod.mk.injEq] at h
              exact h.2.symm
            rw [hr]
            omega
          case isFalse =>
            split at h
            case isFalse => exact absurd h (by simp)
            case isTrue =>
              split at h
              case h_2 => exact absurd h (by simp)
              case h_1 c2 t6 =>
                split at h
                case isFalse => exact absurd h (by simp)
                case isTrue =>
                  have hr : r = t6 := by
                    simp only [Option.some.injEq, Prod.mk.injEq] at h
                    exact h.2.symm
                  rw [hr]
                  simp only [List.length_cons] at ht5
                  omega

/-- `FindAllStringSubmatch` for the font-url pattern, keeping only the
captured group of each match. -/
def findAllFontUrl : List Char → List (List Char)
  | [] => []
  | c :: rest =>
    match h : matchFontUrlAt (c :: rest) with
    | some (g, r) => g :: findAllFontUrl r
    | none => findAllFontUrl rest
termination_by s => s.length
decreasing_by
  · exact matchFontUrlAt_rest_lt h
  · simp only [List.length_cons]
    omega

/-! ### Document tree model (`golang.org/x/net/html` nodes)

A node carries its kind, tag/text data, attribute list and children.
Pointer surgery on the linked sibling list (`InsertBefore`,
`RemoveChild`) becomes list surgery on a parent's child list; a call
that detaches or replaces the visited node is modelled by the node's
processing function returning the list of nodes that stand in its place
in the parent. -/

/-- Node kinds of `html.NodeType` that the program distinguishes. -/
inductive NType where
  | document
  | element
  | text
  | comment
  | doctype
deriving DecidableEq

/-- One HTML attribute. -/
structure HAttr where
  key : String
  val : String
deriving DecidableEq

/-- A document tree node: kind, data (tag name or text), attributes,
children. -/
inductive HNode where
  | mk (ntype : NType) (data : String) (attr : List HAttr) (children : List HNode)

def HNode.ntype : HNode → NType
  | .mk t _ _ _ => t

def HNode.data : HNode → String
  | .mk _ d _ _ => d

def HNode.attr : HNode → List HAttr
  | .mk _ _ a _ => a

def HNode.children : HNode → List HNode
  | .mk _ _ _ cs => cs

/-- First value of the attribute with the given key, `""` if absent:
models the `for ... if a.Key == k { v = a.Val; break }` loops. -/
def getAttrFirst (k : String) : List HAttr → String
  | [] => ""
  | a :: rest => if a.key = k then a.val else getAttrFirst k rest

/-- Model of `isPreloadJS`: scan all attributes, last `rel`/`as` wins,
then compare with `preload`/`script`. -/
def isPreloadJS (n : HNode) : Bool :=
  (n.attr.foldl
      (fun (p : String × String) a =>
        if a.key = "rel" then (a.val, p.2)
        else if a.key = "as" then (p.1, a.val)
        else p)
      ("", "")) = ("preload", "script")

/-- Model of `isStylesheet`: some attribute pair is exactly
`rel=stylesheet`. -/
def isStylesheet (n : HNode) : Bool :=
  n.attr.any (fun a => a.key = "rel" ∧ a.val = "stylesheet")

/-- The fixed list of inline JS event-handler attribute keys removed by
`removeInlineJS`. -/
def jsAttributes : List String :=
  ["onclick", "onload", "onunload", "onchange", "onsubmit", "onreset",
   "onselect", "onblur", "onfocus", "onkeydown", "onkeypress", "onkeyup",
   "onmouseover", "onmouseout", "onmousedown", "onmouseup", "onmousemove"]

/-- The attribute-list part of `removeInlineJS`: the source builds a new
list keeping each attribute whose key matches none of `jsAttributes`,
which is exactly a filter preserving order. -/
def removeInlineJSAttrs (attrs : List HAttr) : List HAttr :=
  attrs.filter (fun attr => !(jsAttributes.any (fun j => attr.key = j)))

/-- Model of `removeInlineJS`: replace the node's attribute list. -/
def removeInlineJS : HNode → HNode
  | .mk t d a cs => .mk t d (removeInlineJSAttrs a) cs

/-! ### CSS embedding and the font-reference rewriter (`embedCSS`) -/

/-- The font extension → MIME type table of the source. -/
def fontMimeTypes : List (String × String) :=
  [(".woff2", "font/woff2"), (".woff", "font/woff"), (".ttf", "font/ttf"),
   (".eot", "application/vnd.ms-fontobject"), (".otf", "font/otf")]

/-- Map lookup in `fontMimeTypes`. -/
def lookupFontMime (ext : String) : Option String :=
  (fontMimeTypes.find? (fun kv => kv.1 = ext)).map (fun kv => kv.2)

/-- The `data:<mime>;base64,<payload>` string built by the source
(`fmt.Sprintf`), with the payload the standard base64 encoding of the
file bytes. -/
def dataURL (mimeType content : String) : String :=
  "data:" ++ mimeType ++ ";base64," ++ b64Encode (strBytes content)

/-- Path resolution shared by `embedCSS` and `embedImage`: a reference
beginning with `/_next` is joined onto the base directory, anything else
is used as given. -/
def resolveRef (baseDir ref : String) : String :=
  if ("/_next").data.isPrefixOf ref.data then filepathJoin baseDir ref else ref

/-- The body of the inner url loop of `embedCSS` (main.go lines
166-195): read the font file (skip on failure), look up the MIME type by
lower-cased extension of the pre-join path (skip when unknown), then
globally substitute the path token by the data URI in the whole current
CSS text. -/
def fontUrlStep (fs : String → Option String) (baseDir : String)
    (cssString : String) (fontPath : String) : String :=
  match fs (filepathJoin baseDir fontPath) with
  | none => cssString
  | some fontContent =>
    match lookupFontMime (String.mk ((filepathExt fontPath).data.map Char.toLower)) with
    | none => cssString
    | some mimeType =>
      stringReplaceAll cssString fontPath (dataURL mimeType fontContent)

/-- The font-face processing part of `embedCSS` (main.go lines 162-196):
extract all font-face blocks from the original text once, extract the
url tokens of each block, and fold the substitution step over them. -/
def rewriteCSS (fs : String → Option String) (baseDir : String) (css : String) : String :=
  (findAllFontFace css.data).foldl
    (fun cssString fontFace =>
      (findAllFontUrl fontFace).foldl
        (fun cs u => fontUrlStep fs baseDir cs (String.mk u)) cssString)
    css

/-- The replacement `<style type="text/css">` node with a single text
child. -/
def styleNode (css : String) : HNode :=
  .mk .element "style" [⟨"type", "text/css"⟩] [.mk .text css [] []]

/-- What `embedCSS` does to the visited link node, as a value: `none`
when the tree is left untouched (no `href`, or the CSS file is
unreadable), `some style` when the link is to be replaced by the style
node. -/
def embedCSSResult (fs : String → Option String) (baseDir : String) (n : HNode) :
    Option HNode :=
  if getAttrFirst "href" n.attr = "" then none
  else
    match fs (resolveRef baseDir (getAttrFirst "href" n.attr)) with
    | none => none
    | some cssContent => some (styleNode (rewriteCSS fs baseDir cssContent))

/-- `parent.InsertBefore(newNode, children[i])` as list surgery. -/
def insertBeforeAt (children : List HNode) (i : Nat) (newNode : HNode) : List HNode :=
  children.take i ++ newNode :: children.drop i

/-- `parent.RemoveChild(children[i])` as list surgery. -/
def removeChildAt (children : List HNode) (i : Nat) : List HNode :=
  children.take i ++ children.drop (i + 1)

/-- The effect of one `embedCSS` call on the parent's child list when
the visited link node sits at index `i`: on success, insert the style
node before the link and then remove the link; otherwise leave the list
unchanged. -/
def embedCSSAt (fs : String → Option String) (baseDir : String)
    (children : List HNode) (i : Nat) : List HNode :=
  match children[i]? with
  | none => children
  | some n =>
    match embedCSSResult fs baseDir n with
    | none => children
    | some style => removeChildAt (insertBeforeAt children i style) (i + 1)

/-! ### The tree transformation engine (`processNode`) -/

/-- Run configuration (the fields `processNode` reads). -/
structure Config where
  removeJS : Bool
  baseDir : String

mutual

/-- Model of `processNode`: the list of nodes that stand in the visited
node's place in its parent.  A detached script or preload link yields
`[]`; a successfully embedded stylesheet link yields the style node
(which the traversal does not descend into, since the sibling cursor was
saved before the call); otherwise the node survives with inline JS
attributes stripped (elements, when enabled) and its children processed
in order. -/
def processNode (fs : String → Option String) (cfg : Config) (n : HNode) : List HNode :=
  match n with
  | .mk t d a cs =>
    if t = .element then
      if d = "script" ∧ cfg.removeJS then []
      else if d = "link" ∧ isPreloadJS (.mk t d a cs) ∧ cfg.removeJS then []
      else if d = "link" ∧ isStylesheet (.mk t d a cs) then
        match embedCSSResult fs cfg.baseDir (.mk t d a cs) with
        | some style => [style]
        | none =>
          [.mk t d (if cfg.removeJS then removeInlineJSAttrs a else a)
            (processList fs cfg cs)]
      else
        [.mk t d (if cfg.removeJS then removeInlineJSAttrs a else a)
          (processList fs cfg cs)]
    else
      [.mk t d a (processList fs cfg cs)]

/-- The child loop of `processNode`: each child is processed after
saving the next sibling, so each child's replacement list lands in
place. -/
def processList (fs : String → Option String) (cfg : Config) : List HNode → List HNode
  | [] => []
  | c :: cs => processNode fs cfg c ++ processList fs cfg cs

end

/-! ### Image embedding (`embedImage`, present in the second source
variant) -/

/-- The source defaults the MIME type to `image/png` when the generic
lookup returns an empty string. -/
def imageMime (m : String) : String :=
  if m = "" then "image/png" else m

/-- Replace the value of the first attribute with the given key. -/
def setFirstAttr (k v : String) : List HAttr → List HAttr
  | [] => []
  | a :: rest => if a.key = k then ⟨a.key, v⟩ :: rest else a :: setFirstAttr k v rest

/-- Model of `embedImage`.  `mimeLookup` stands for the OS-provided
`mime.TypeByExtension` table (an external input), `processedURLs` is the
run's dedup set, and the returned `Nat` counts the `os.ReadFile` calls
the invocation performs.  Note the source checks the set against the
original `src` value but, after the `/_next` branch reassigns `src`,
marks the joined path. -/
def embedImage (fs : String → Option String) (mimeLookup : String → String)
    (baseDir : String) (n : HNode) (processedURLs : List String) :
    HNode × List String × Nat :=
  if getAttrFirst "src" n.attr = "" ∨ processedURLs.contains (getAttrFirst "src" n.attr) then
    (n, processedURLs, 0)
  else
    match fs (resolveRef baseDir (getAttrFirst "src" n.attr)) with
    | none => (n, processedURLs, 1)
    | some imgContent =>
      (.mk n.ntype n.data
        (setFirstAttr "src"
          (dataURL
            (imageMime (mimeLookup (filepathExt (resolveRef baseDir (getAttrFirst "src" n.attr)))))
            imgContent)
          n.attr)
        n.children,
       resolveRef baseDir (getAttrFirst "src" n.attr) :: processedURLs, 1)

/-- The Font-Reference Rewriter as the specification words it: collect
the url tokens of every font-face block, and for each successfully
resolved and encoded one replace every occurrence of the path token in
the whole current CSS text by its data URI, in order.  This is the
spec-side definition used to state that the source's nested-loop
rewriter performs a global substitution over the entire text. -/
def specGlobalSubstitution (fs : String → Option String) (baseDir : String)
    (css : String) : String :=
  ((findAllFontFace css.data).flatMap findAllFontUrl).foldl
    (fun cssString u =>
      match fs (filepathJoin baseDir (String.mk u)) with
      | none => cssString
      | some fontContent =>
        match lookupFontMime
            (String.mk ((filepathExt (String.mk u)).data.map Char.toLower)) with
        | none => cssString
        | some mimeType =>
          stringReplaceAll cssString (String.mk u) (dataURL mimeType fontContent))
    css

/-! ### Parent-dereference checking variant of the engine

`processNode`'s detach branches and `embedCSS`'s replacement call
`n.Parent.RemoveChild` / `n.Parent.InsertBefore` without a nil check.
This variant makes the dereference explicit: a node visited without a
parent that reaches such a branch yields `none` (the nil dereference);
children are always visited with a parent. -/

mutual

def processNodeChk (fs : String → Option String) (cfg : Config)
    (hasParent : Bool) (n : HNode) : Option (List HNode) :=
  match n with
  | .mk t d a cs =>
    if t = .element then
      if d = "script" ∧ cfg.removeJS then
        if hasParent then some [] else none
      else if d = "link" ∧ isPreloadJS (.mk t d a cs) ∧ cfg.removeJS then
        if hasParent then some [] else none
      else if d = "link" ∧ isStylesheet (.mk t d a cs) then
        match embedCSSResult fs cfg.baseDir (.mk t d a cs) with
        | some style => if hasParent then some [style] else none
        | none =>
          (processListChk fs cfg cs).map (fun l =>
            [.mk t d (if cfg.removeJS then removeInlineJSAttrs a else a) l])
      else
        (processListChk fs cfg cs).map (fun l =>
          [.mk t d (if cfg.removeJS then removeInlineJSAttrs a else a) l])
    else
      (processListChk fs cfg cs).map (fun l => [.mk t d a l])

def processListChk (fs : String → Option String) (cfg : Config) :
    List HNode → Option (List HNode)
  | [] => some []
  | c :: cs =>
    match processNodeChk fs cfg true c, processListChk fs cfg cs with
    | some l1, some l2 => some (l1 ++ l2)
    | _, _ => none

end

/-! ### Counting helpers for the structural claims -/

mutual

/-- Number of script elements in the subtree rooted at a node
(including the node itself). -/
def scriptCount : HNode → Nat
  | .mk t d _ cs => (if t = .element ∧ d = "script" then 1 else 0) + scriptCountList cs

def scriptCountList : List HNode → Nat
  | [] => 0
  | c :: cs => scriptCount c + scriptCountList cs

end

mutual

/-- Number of non-script nodes in the subtree rooted at a node
(including the node itself). -/
def nonScriptCount : HNode → Nat
  | .mk t d _ cs => (if t = .element ∧ d = "script" then 0 else 1) + nonScriptCountList cs

def nonScriptCountList : List HNode → Nat
  | [] => 0
  | c :: cs => nonScriptCount c + nonScriptCountList cs

end

mutual

/-- Trees with no link elements and with childless script elements: the
fragment on which JS removal is count-preserving for non-script nodes. -/
def plainTree : HNode → Bool
  | .mk t d _ cs =>
    (if t = .element ∧ d = "link" then false
     else if t = .element ∧ d = "script" then cs.isEmpty
     else true) && plainTreeList cs

def plainTreeList : List HNode → Bool
  | [] => true
  | c :: cs => plainTree c && plainTreeList cs

end

/-! ### Supporting lemmas -/

theorem charSextet_sextetChar : ∀ n, n < 64 → charSextet (sextetChar n) = n := by
  decide

theorem sextetChar_ne_pad : ∀ n, n < 64 → sextetChar n ≠ '=' := by
  decide

theorem b64_roundtrip : ∀ bs : List Nat, (∀ b ∈ bs, b < 256) →
    b64DecodeList (b64EncodeList bs) = bs := by
  intro bs
  induction bs using b64EncodeList.induct with
  | case1 =>
    intro _
    rfl
  | case2 b1 =>
    intro h
    have hb1 : b1 < 256 := h b1 (by simp)
    simp only [b64EncodeList, b64DecodeList]
    simp only [reduceIte]
    rw [charSextet_sextetChar _ (by omega), charSextet_sextetChar _ (by omega)]
    simp only [List.cons.injEq, and_true]
    omega
  | case3 b1 b2 =>
    intro h
    have hb1 : b1 < 256 := h b1 (by simp)
    have hb2 : b2 < 256 := h b2 (by simp)
    simp only [b64EncodeList, b64DecodeList]
    rw [if_neg (sextetChar_ne_pad _ (by omega))]
    simp only [reduceIte]
    rw [charSextet_sextetChar _ (by omega), charSextet_sextetChar _ (by omega),
      charSextet_sextetChar _ (by omega)]
    simp only [List.cons.injEq, and_true]
    omega
  | case4 b1 b2 b3 rest ih =>
    intro h
    have hb1 : b1 < 256 := h b1 (by simp)
    have hb2 : b2 < 256 := h b2 (by simp)
    have hb3 : b3 < 256 := h b3 (by simp)
    simp only [b64EncodeList, b64DecodeList]
    rw [if_neg (sextetChar_ne_pad _ (by omega)),
      if_neg (sextetChar_ne_pad _ (by omega))]
    rw [charSextet_sextetChar _ (by omega), charSextet_sextetChar _ (by omega),
      charSextet_sextetChar _ (by omega), charSextet_sextetChar _ (by omega)]
    rw [ih (by intro b hb; exact h b (by simp [hb]))]
    simp only [List.cons.injEq, and_true]
    omega

theorem sextetChar_ne_newline (n : Nat) : sextetChar n ≠ '\n' := by
  by_cases h : n < 64
  · exact (by decide : ∀ k, k < 64 → sextetChar k ≠ '\n') n h
  · unfold sextetChar
    rw [List.getD_eq_default]
    · decide
    · have : base64Chars.length = 64 := by decide
      omega

theorem newline_not_in_b64 : ∀ bs : List Nat, '\n' ∉ b64EncodeList bs := by
  intro bs
  induction bs using b64EncodeList.induct with
  | case1 => simp [b64EncodeList]
  | case2 b1 =>
    simp only [b64EncodeList, List.mem_cons, List.not_mem_nil, or_false]
    push_neg
    refine ⟨?_, ?_, by decide, by decide⟩
    · exact fun e => sextetChar_ne_newline _ e.symm
    · exact fun e => sextetChar_ne_newline _ e.symm
  | case3 b1 b2 =>
    simp only [b64EncodeList, List.mem_cons, List.not_mem_nil, or_false]
    push_neg
    refine ⟨?_, ?_, ?_, by decide⟩
    · exact fun e => sextetChar_ne_newline _ e.symm
    · exact fun e => sextetChar_ne_newline _ e.symm
    · exact fun e => sextetChar_ne_newline _ e.symm
  | case4 b1 b2 b3 rest ih =>
    simp only [b64EncodeList, List.mem_cons]
    push_neg
    refine ⟨?_, ?_, ?_, ?_, ih⟩
    · exact fun e => sextetChar_ne_newline _ e.symm
    · exact fun e => sextetChar_ne_newline _ e.symm
    · exact fun e => sextetChar_ne_newline _ e.symm
    · exact fun e => sextetChar_ne_newline _ e.symm

/-! ### Claim C8 -/

/-- C8: stripping the fixed event-handler attribute set is idempotent —
for every element node, applying `removeInlineJS` twice yields the same
attribute list (indeed the same node) as applying it once. -/
theorem c8_removeInlineJS_idempotent (n : HNode) :
    removeInlineJS (removeInlineJS n) = removeInlineJS n := by
  cases n with
  | mk t d a cs =>
    simp only [removeInlineJS, removeInlineJSAttrs, HNode.mk.injEq,
      true_and, and_true]
    exact List.filter_eq_self.mpr (fun x hx => (List.mem_filter.mp hx).2)

/-! ### Claim C9 -/

/-- C9: `removeInlineJS` removes exactly the attributes whose key is
string-equal (exact, case-sensitive) to one of the seventeen listed
event-handler names; any attribute with another key — including
"onerror" and the case variant "onClick" — is retained. -/
theorem c9_removeInlineJS_exact (n : HNode) (a : HAttr) :
    (a ∈ (removeInlineJS n).attr ↔ a ∈ n.attr ∧ a.key ∉ jsAttributes) ∧
    jsAttributes.length = 17 ∧
    "onerror" ∉ jsAttributes ∧ "onClick" ∉ jsAttributes := by
  refine ⟨?_, by decide, by decide, by decide⟩
  cases n with
  | mk t d attrs cs =>
    simp only [removeInlineJS, removeInlineJSAttrs, HNode.attr, List.mem_filter,
      Bool.not_eq_eq_eq_not, Bool.not_true, List.any_eq_false,
      decide_eq_false_iff_not]
    constructor
    · rintro ⟨hmem, hkeep⟩
      exact ⟨hmem, fun hkey => hkeep a.key hkey (by simp)⟩
    · rintro ⟨hmem, hkey⟩
      exact ⟨hmem, fun j hj he => hkey ((of_decide_eq_true he) ▸ hj)⟩

/-! ### Claim C5 -/

/-- C5: for every embedded asset (font or image) with content bytes `B`
and MIME type `M`, the produced reference string is exactly
`data:M;base64,P` with `P` the standard padded RFC 4648 base64 encoding
of `B`, containing no line break, and decoding `P` gives back `B`. -/
theorem c5_data_uri_valid (m content : String)
    (hbytes : ∀ b ∈ strBytes content, b < 256) :
    dataURL m content = "data:" ++ m ++ ";base64," ++ b64Encode (strBytes content) ∧
    b64DecodeList (b64EncodeList (strBytes content)) = strBytes content ∧
    '\n' ∉ b64EncodeList (strBytes content) := by
  refine ⟨rfl, b64_roundtrip _ hbytes, newline_not_in_b64 _⟩

/-- Witness for C5 at concrete input. -/
theorem c5_data_uri_valid_witness :
    (∀ b ∈ strBytes "Man", b < 256) ∧
    (dataURL "font/woff2" "Man" =
        "data:" ++ "font/woff2" ++ ";base64," ++ b64Encode (strBytes "Man") ∧
      b64DecodeList (b64EncodeList (strBytes "Man")) = strBytes "Man" ∧
      '\n' ∉ b64EncodeList (strBytes "Man")) :=
  ⟨by decide, c5_data_uri_valid "font/woff2" "Man" (by decide)⟩

/-! ### Claim C3 -/

/-- C3: when the stylesheet link's href resolves to a readable CSS file,
`embedCSS` produces a style element with `type=text/css` whose single
text child is the Font-Reference Rewriter's output on the file text
(resolved against the same base directory) — not the raw file text. -/
theorem c3_embedCSS_uses_rewriter (fs : String → Option String) (baseDir : String)
    (n : HNode) (css : String)
    (hhref : getAttrFirst "href" n.attr ≠ "")
    (hread : fs (resolveRef baseDir (getAttrFirst "href" n.attr)) = some css) :
    embedCSSResult fs baseDir n =
      some (.mk .element "style" [⟨"type", "text/css"⟩]
        [.mk .text (rewriteCSS fs baseDir css) [] []]) := by
  unfold embedCSSResult
  rw [if_neg hhref, hread]
  rfl

/-- Witness for C3 at concrete input. -/
theorem c3_embedCSS_uses_rewriter_witness :
    embedCSSResult (fun p => if p = "base/_next/s.css" then some "b" else none) "base"
      (.mk .element "link" [⟨"rel", "stylesheet"⟩, ⟨"href", "/_next/s.css"⟩] []) =
      some (.mk .element "style" [⟨"type", "text/css"⟩]
        [.mk .text
          (rewriteCSS (fun p => if p = "base/_next/s.css" then some "b" else none)
            "base" "b") [] []]) :=
  c3_embedCSS_uses_rewriter
    (fun p => if p = "base/_next/s.css" then some "b" else none) "base"
    (.mk .element "link" [⟨"rel", "stylesheet"⟩, ⟨"href", "/_next/s.css"⟩] [])
    "b" (by decide) (by decide)

/-! ### Claim C6 -/

theorem surgery_eq_set (x : HNode) :
    ∀ (l : List HNode) (i : Nat), i < l.length →
      removeChildAt (insertBeforeAt l i x) (i + 1) = l.set i x := by
  intro l
  induction l with
  | nil =>
    intro i h
    simp at h
  | cons a t ih =>
    intro i h
    cases i with
    | zero =>
      simp [insertBeforeAt, removeChildAt]
    | succ i =>
      have h2 : i < t.length := by
        simp only [List.length_cons] at h
        omega
      have e1 : insertBeforeAt (a :: t) (i + 1) x = a :: insertBeforeAt t i x := by
        simp [insertBeforeAt, List.take_succ_cons, List.drop_succ_cons]
      have e2 : removeChildAt (a :: insertBeforeAt t i x) (i + 1 + 1) =
          a :: removeChildAt (insertBeforeAt t i x) (i + 1) := by
        simp [removeChildAt, List.take_succ_cons, List.drop_succ_cons]
      rw [e1, e2, ih i h2, List.set_cons_succ]

/-- C6: a successful `embedCSS` on the stylesheet link at sibling index
`i` leaves the parent's child list identical except that index `i` now
holds the new style element: the length is unchanged and every other
index holds exactly the child it held before. -/
theorem c6_replacement_preserves_position (fs : String → Option String)
    (baseDir : String) (children : List HNode) (i : Nat) (n style : HNode)
    (hn : children[i]? = some n)
    (hs : embedCSSResult fs baseDir n = some style) :
    embedCSSAt fs baseDir children i = children.set i style ∧
    (embedCSSAt fs baseDir children i).length = children.length ∧
    (embedCSSAt fs baseDir children i)[i]? = some style ∧
    ∀ j, j ≠ i → (embedCSSAt fs baseDir children i)[j]? = children[j]? := by
  have hi : i < children.length := by
    rcases List.getElem?_eq_some.mp hn with ⟨h, _⟩
    exact h
  have hmain : embedCSSAt fs baseDir children i = children.set i style := by
    simp only [embedCSSAt, hn, hs]
    exact surgery_eq_set style children i hi
  refine ⟨hmain, ?_, ?_, ?_⟩
  · rw [hmain, List.length_set]
  · rw [hmain]
    rw [List.getElem?_set_self]
    · exact hi
  · intro j hj
    rw [hmain]
    exact List.getElem?_set_ne (fun e => hj e.symm)

/-- Witness for C6 at concrete input. -/
theorem c6_replacement_preserves_position_witness :
    embedCSSAt (fun p => if p = "s.css" then some "b" else none) "base"
      [.mk .element "div" [] [],
       .mk .element "link" [⟨"rel", "stylesheet"⟩, ⟨"href", "s.css"⟩] [],
       .mk .element "p" [] []] 1 =
      [.mk .element "div" [] [],
       .mk .element "link" [⟨"rel", "stylesheet"⟩, ⟨"href", "s.css"⟩] [],
       .mk .element "p" [] []].set 1
        (styleNode (rewriteCSS (fun p => if p = "s.css" then some "b" else none) "base" "b")) :=
  (c6_replacement_preserves_position
    (fun p => if p = "s.css" then some "b" else none) "base"
    [.mk .element "div" [] [],
     .mk .element "link" [⟨"rel", "stylesheet"⟩, ⟨"href", "s.css"⟩] [],
     .mk .element "p" [] []] 1
    (.mk .element "link" [⟨"rel", "stylesheet"⟩, ⟨"href", "s.css"⟩] [])
    (styleNode (rewriteCSS (fun p => if p = "s.css" then some "b" else none) "base" "b"))
    rfl rfl).1

/-! ### Claim C7 -/

/-- C7: when the stylesheet link's href path cannot be read, `embedCSS`
leaves the tree unmutated — the link node keeps its attributes and its
position among its siblings — and the (total) run goes on. -/
theorem c7_unreadable_css_noop (fs : String → Option String) (baseDir : String)
    (children : List HNode) (i : Nat) (n : HNode)
    (hn : children[i]? = some n)
    (hread : fs (resolveRef baseDir (getAttrFirst "href" n.attr)) = none) :
    embedCSSResult fs baseDir n = none ∧
    embedCSSAt fs baseDir children i = children := by
  have h1 : embedCSSResult fs baseDir n = none := by
    unfold embedCSSResult
    split
    · rfl
    · rw [hread]
  refine ⟨h1, ?_⟩
  simp only [embedCSSAt, hn, h1]

/-- Witness for C7 at concrete input. -/
theorem c7_unreadable_css_noop_witness :
    embedCSSResult (fun _ => none) "base"
      (.mk .element "link" [⟨"rel", "stylesheet"⟩, ⟨"href", "missing.css"⟩] []) = none ∧
    embedCSSAt (fun _ => none) "base"
      [.mk .element "link" [⟨"rel", "stylesheet"⟩, ⟨"href", "missing.css"⟩] []] 0 =
      [.mk .element "link" [⟨"rel", "stylesheet"⟩, ⟨"href", "missing.css"⟩] []] :=
  c7_unreadable_css_noop (fun _ => none) "base"
    [.mk .element "link" [⟨"rel", "stylesheet"⟩, ⟨"href", "missing.css"⟩] []] 0
    (.mk .element "link" [⟨"rel", "stylesheet"⟩, ⟨"href", "missing.css"⟩] [])
    rfl rfl

/-! ### Claim C4 -/

theorem foldl_flatMap {α β γ : Type} (f : γ → β → γ) (h : α → List β) :
    ∀ (L : List α) (init : γ),
      (L.flatMap h).foldl f init =
        L.foldl (fun acc x => (h x).foldl f acc) init := by
  intro L
  induction L with
  | nil =>
    intro init
    rfl
  | cons a t ih =>
    intro init
    simp only [List.flatMap_cons, List.foldl_append, List.foldl_cons]
    exact ih _

/-- C4: the source's nested font-face/url loops perform, for every
successfully resolved and encoded path token, a single global
substitution of the token over the entire current CSS text (not a
substitution scoped to the matched `url()` or its font-face block):
`rewriteCSS` coincides with the spec-side `specGlobalSubstitution`,
which folds the whole-text replacement over all extracted tokens. -/
theorem c4_global_substitution (fs : String → Option String)
    (baseDir : String) (css : String) :
    rewriteCSS fs baseDir css = specGlobalSubstitution fs baseDir css := by
  unfold rewriteCSS specGlobalSubstitution
  rw [foldl_flatMap]
  rfl

/-! ### Claim C2 -/

theorem scriptCountList_append : ∀ l1 l2 : List HNode,
    scriptCountList (l1 ++ l2) = scriptCountList l1 + scriptCountList l2 := by
  intro l1 l2
  induction l1 with
  | nil => simp [scriptCountList]
  | cons a t ih =>
    simp only [List.cons_append, scriptCountList]
    rw [show t.append l2 = t ++ l2 from rfl, ih]
    omega

theorem nonScriptCountList_append : ∀ l1 l2 : List HNode,
    nonScriptCountList (l1 ++ l2) = nonScriptCountList l1 + nonScriptCountList l2 := by
  intro l1 l2
  induction l1 with
  | nil => simp [nonScriptCountList]
  | cons a t ih =>
    simp only [List.cons_append, nonScriptCountList]
    rw [show t.append l2 = t ++ l2 from rfl, ih]
    omega

theorem embedCSSResult_scriptFree (fs : String → Option String) (b : String)
    (n s : HNode) (h : embedCSSResult fs b n = some s) : scriptCount s = 0 := by
  unfold embedCSSResult at h
  split at h
  · exact absurd h (by simp)
  · split at h
    · exact absurd h (by simp)
    · rw [Option.some.injEq] at h
      rw [← h]
      rfl

mutual

theorem scriptFree_processNode (fs : String → Option String) (cfg : Config)
    (hJS : cfg.removeJS = true) :
    ∀ n : HNode, scriptCountList (processNode fs cfg n) = 0
  | .mk t d a cs => by
    have hcs := scriptFree_processList fs cfg hJS cs
    unfold processNode
    split
    case isTrue ht =>
      split
      case isTrue h2 => rfl
      case isFalse h2 =>
        split
        case isTrue h3 => rfl
        case isFalse h3 =>
          split
          case isTrue h4 =>
            split
            case h_1 style hstyle =>
              have hsf := embedCSSResult_scriptFree fs cfg.baseDir _ _ hstyle
              simp [scriptCountList, hsf]
            case h_2 hnone =>
              simp only [scriptCountList, scriptCount]
              rw [if_neg]
              · simp [hcs]
              · rintro ⟨-, hd⟩
                exact absurd (h4.1.symm.trans hd) (by decide)
          case isFalse h4 =>
            simp only [scriptCountList, scriptCount]
            rw [if_neg]
            · simp [hcs]
            · rintro ⟨-, hd⟩
              exact h2 ⟨hd, hJS⟩
    case isFalse ht =>
      simp only [scriptCountList, scriptCount]
      rw [if_neg]
      · simp [hcs]
      · rintro ⟨hteq, -⟩
        exact ht hteq

theorem scriptFree_processList (fs : String → Option String) (cfg : Config)
    (hJS : cfg.removeJS = true) :
    ∀ l : List HNode, scriptCountList (processList fs cfg l) = 0
  | [] => rfl
  | c :: cs => by
    have h1 := scriptFree_processNode fs cfg hJS c
    have h2 := scriptFree_processList fs cfg hJS cs
    unfold processList
    rw [scriptCountList_append, h1, h2]

end

mutual

theorem plainNonScript_processNode (fs : String → Option String) (cfg : Config)
    (hJS : cfg.removeJS = true) :
    ∀ n : HNode, plainTree n = true →
      nonScriptCountList (processNode fs cfg n) = nonScriptCount n
  | .mk t d a cs => by
    intro hp
    rw [plainTree] at hp
    rw [Bool.and_eq_true] at hp
    have hcs := plainNonScript_processList fs cfg hJS cs hp.2
    unfold processNode
    split
    case isTrue ht =>
      split
      case isTrue h2 =>
        obtain ⟨hd, -⟩ := h2
        subst ht
        subst hd
        have hp1 := hp.1
        rw [if_neg (by decide), if_pos (by exact ⟨rfl, rfl⟩)] at hp1
        rw [List.isEmpty_iff] at hp1
        subst hp1
        rfl
      case isFalse h2 =>
        split
        case isTrue h3 =>
          obtain ⟨hd, -, -⟩ := h3
          subst ht
          subst hd
          have hp1 := hp.1
          rw [if_pos (by exact ⟨rfl, rfl⟩)] at hp1
          exact absurd hp1 (by decide)
        case isFalse h3 =>
          split
          case isTrue h4 =>
            obtain ⟨hd, -⟩ := h4
            subst ht
            subst hd
            have hp1 := hp.1
            rw [if_pos (by exact ⟨rfl, rfl⟩)] at hp1
            exact absurd hp1 (by decide)
          case isFalse h4 =>
            simp only [nonScriptCountList, nonScriptCount, hcs]
            omega
    case isFalse ht =>
      simp only [nonScriptCountList, nonScriptCount, hcs]
      omega

theorem plainNonScript_processList (fs : String → Option String) (cfg : Config)
    (hJS : cfg.removeJS = true) :
    ∀ l : List HNode, plainTreeList l = true →
      nonScriptCountList (processList fs cfg l) = nonScriptCountList l
  | [] => by
    intro _
    rfl
  | c :: cs => by
    intro hp
    rw [plainTreeList] at hp
    rw [Bool.and_eq_true] at hp
    have h1 := plainNonScript_processNode fs cfg hJS c hp.1
    have h2 := plainNonScript_processList fs cfg hJS cs hp.2
    unfold processList
    rw [nonScriptCountList_append, h1, h2]
    rfl

end

/-- C2 (amended): with JS removal enabled no script element remains
anywhere in the engine's result; and the number of non-script
descendants of the root is unchanged provided the tree contains no link
elements and its script elements are childless.  (As stated, the claim
fails: removing a script removes the script's text children, and
preload-JS links and stylesheet-link replacement also change the
non-script count.) -/
theorem c2_structural_safety (fs : String → Option String) (cfg : Config)
    (hJS : cfg.removeJS = true) (root : HNode) :
    scriptCountList (processNode fs cfg root) = 0 ∧
    (plainTree root = true →
      nonScriptCountList (processList fs cfg root.children) =
        nonScriptCountList root.children) := by
  refine ⟨scriptFree_processNode fs cfg hJS root, fun hp => ?_⟩
  apply plainNonScript_processList fs cfg hJS
  cases root with
  | mk t d a cs =>
    rw [plainTree] at hp
    rw [Bool.and_eq_true] at hp
    exact hp.2

/-- C2 counterexample: on T = document[script[text]] the engine removes
the script together with its text child, so the number of non-script
descendants of the root drops from 1 to 0, refuting the conjunction the
claim asserts. -/
theorem c2_counterexample :
    ¬ (scriptCountList (processNode (fun _ => none) ⟨true, ""⟩
          (.mk .document "" []
            [.mk .element "script" [] [.mk .text "alert(1)" [] []]])) = 0 ∧
       nonScriptCountList (processList (fun _ => none) ⟨true, ""⟩
          (HNode.mk .document "" []
            [.mk .element "script" [] [.mk .text "alert(1)" [] []]]).children) =
         nonScriptCountList (HNode.mk .document "" []
            [.mk .element "script" [] [.mk .text "alert(1)" [] []]]).children) := by
  decide

/-- Witness for the amended C2 at concrete input. -/
theorem c2_structural_safety_witness :
    scriptCountList (processNode (fun _ => none) ⟨true, ""⟩
        (.mk .document "" []
          [.mk .element "script" [] [],
           .mk .element "div" [⟨"onclick", "f()"⟩] [.mk .text "hi" [] []]])) = 0 ∧
    (plainTree (HNode.mk .document "" []
          [.mk .element "script" [] [],
           .mk .element "div" [⟨"onclick", "f()"⟩] [.mk .text "hi" [] []]]) = true →
      nonScriptCountList (processList (fun _ => none) ⟨true, ""⟩
          (HNode.mk .document "" []
            [.mk .element "script" [] [],
             .mk .element "div" [⟨"onclick", "f()"⟩] [.mk .text "hi" [] []]]).children) =
        nonScriptCountList (HNode.mk .document "" []
            [.mk .element "script" [] [],
             .mk .element "div" [⟨"onclick", "f()"⟩] [.mk .text "hi" [] []]]).children) :=
  c2_structural_safety (fun _ => none) ⟨true, ""⟩ rfl
    (.mk .document "" []
      [.mk .element "script" [] [],
       .mk .element "div" [⟨"onclick", "f()"⟩] [.mk .text "hi" [] []]])

/-! ### Claim C1 -/

/-- C1 (amended): the dedup check reads the original `src` value but the
mark is written under the post-join path.  For a src that does not begin
with `/_next` the join leaves it unchanged, so embedding the same src
twice performs exactly one read: the first call reads once and marks the
src, the second call is a no-op (node untouched, set unchanged, zero
reads).  (As stated — "for every S, including those beginning with the
/_next prefix" — the claim fails; see the counterexample.) -/
theorem c1_dedup_non_next (fs : String → Option String) (mimeLookup : String → String)
    (baseDir : String) (n1 n2 : HNode) (processed : List String) (S content : String)
    (hS1 : getAttrFirst "src" n1.attr = S)
    (hS2 : getAttrFirst "src" n2.attr = S)
    (hne : S ≠ "")
    (hpre : ("/_next").data.isPrefixOf S.data = false)
    (hnew : processed.contains S = false)
    (hread : fs S = some content) :
    (embedImage fs mimeLookup baseDir n1 processed).2.2 = 1 ∧
    (embedImage fs mimeLookup baseDir n1 processed).2.1 = S :: processed ∧
    embedImage fs mimeLookup baseDir n2 (S :: processed) = (n2, S :: processed, 0) := by
  have hres : resolveRef baseDir S = S := by
    unfold resolveRef
    rw [hpre]
    simp
  have hcall1 :
      (embedImage fs mimeLookup baseDir n1 processed).2.2 = 1 ∧
      (embedImage fs mimeLookup baseDir n1 processed).2.1 = S :: processed := by
    unfold embedImage
    rw [hS1]
    rw [if_neg (by
      rintro (h | h)
      · exact hne h
      · exact absurd h (by simpa using hnew))]
    rw [hres, hread]
    exact ⟨rfl, rfl⟩
  have hcall2 : embedImage fs mimeLookup baseDir n2 (S :: processed) =
      (n2, S :: processed, 0) := by
    unfold embedImage
    rw [hS2]
    rw [if_pos]
    right
    simp
  exact ⟨hcall1.1, hcall1.2, hcall2⟩

/-- Witness for the amended C1 at concrete input. -/
theorem c1_dedup_non_next_witness :
    (embedImage (fun p => if p = "i.png" then some "ab" else none) (fun _ => "")
        "base" (.mk .element "img" [⟨"src", "i.png"⟩] []) []).2.2 = 1 ∧
    (embedImage (fun p => if p = "i.png" then some "ab" else none) (fun _ => "")
        "base" (.mk .element "img" [⟨"src", "i.png"⟩] []) []).2.1 = ["i.png"] ∧
    embedImage (fun p => if p = "i.png" then some "ab" else none) (fun _ => "")
        "base" (.mk .element "img" [⟨"src", "i.png"⟩] []) ["i.png"] =
      (.mk .element "img" [⟨"src", "i.png"⟩] [], ["i.png"], 0) :=
  c1_dedup_non_next (fun p => if p = "i.png" then some "ab" else none) (fun _ => "")
    "base" (.mk .element "img" [⟨"src", "i.png"⟩] [])
    (.mk .element "img" [⟨"src", "i.png"⟩] []) [] "i.png" "ab"
    rfl rfl (by decide) (by decide) (by decide) (by decide)

/-- C1 counterexample: with base directory "base" and S = "/_next/i.png"
(readable at "base/_next/i.png"), two calls on nodes with the same src
perform two file reads, not one: the first call marks the joined path
"base/_next/i.png" rather than S, so the second call's check of S
misses. -/
theorem c1_counterexample :
    ¬ ((embedImage (fun p => if p = "base/_next/i.png" then some "ab" else none)
          (fun _ => "") "base"
          (.mk .element "img" [⟨"src", "/_next/i.png"⟩] []) []).2.2 +
        (embedImage (fun p => if p = "base/_next/i.png" then some "ab" else none)
          (fun _ => "") "base"
          (.mk .element "img" [⟨"src", "/_next/i.png"⟩] [])
          (embedImage (fun p => if p = "base/_next/i.png" then some "ab" else none)
            (fun _ => "") "base"
            (.mk .element "img" [⟨"src", "/_next/i.png"⟩] []) []).2.1).2.2 = 1) := by
  decide

/-! ### Claim C10 -/

mutual

theorem chk_true_isSome (fs : String → Option String) (cfg : Config) :
    ∀ n : HNode, (processNodeChk fs cfg true n).isSome = true
  | .mk t d a cs => by
    have hcs := chkList_isSome fs cfg cs
    obtain ⟨l0, hl0⟩ := Option.isSome_iff_exists.mp hcs
    unfold processNodeChk
    split
    · split
      · rfl
      · split
        · rfl
        · split
          · split
            · rfl
            · rw [hl0]
              rfl
          · rw [hl0]
            rfl
    · rw [hl0]
      rfl

theorem chkList_isSome (fs : String → Option String) (cfg : Config) :
    ∀ l : List HNode, (processListChk fs cfg l).isSome = true
  | [] => rfl
  | c :: cs => by
    have h1 := chk_true_isSome fs cfg c
    have h2 := chkList_isSome fs cfg cs
    obtain ⟨l1, hl1⟩ := Option.isSome_iff_exists.mp h1
    obtain ⟨l2, hl2⟩ := Option.isSome_iff_exists.mp h2
    unfold processListChk
    rw [hl1, hl2]
    rfl

end

/-- C10: the detach branches of `processNode` and the replacement step
of `embedCSS` dereference the visited node's parent with no nil check.
Visited with a parent present, no dereference of a missing parent can
occur anywhere in the traversal (children always have one), and a
non-element root without a parent is also safe; but calling the engine
with JS removal enabled directly on a parentless script element, a
parentless preload-JS link, or a parentless stylesheet link whose CSS
embeds successfully reaches the nil dereference. -/
theorem c10_parent_dereference (fs : String → Option String) (cfg : Config) (n : HNode) :
    (processNodeChk fs cfg true n).isSome = true ∧
    (n.ntype ≠ NType.element → (processNodeChk fs cfg false n).isSome = true) ∧
    (n.ntype = NType.element → n.data = "script" → cfg.removeJS = true →
      processNodeChk fs cfg false n = none) ∧
    (n.ntype = NType.element → n.data = "link" → isPreloadJS n = true →
      cfg.removeJS = true → processNodeChk fs cfg false n = none) ∧
    (n.ntype = NType.element → n.data = "link" →
      ¬ (isPreloadJS n = true ∧ cfg.removeJS = true) → isStylesheet n = true →
      ∀ style, embedCSSResult fs cfg.baseDir n = some style →
        processNodeChk fs cfg false n = none) := by
  cases n with
  | mk t d a cs =>
    have hcs := chkList_isSome fs cfg cs
    obtain ⟨l0, hl0⟩ := Option.isSome_iff_exists.mp hcs
    refine ⟨chk_true_isSome fs cfg _, ?_, ?_, ?_, ?_⟩
    · intro ht
      rw [HNode.ntype] at ht
      unfold processNodeChk
      rw [if_neg ht, hl0]
      rfl
    · intro ht hd hjs
      rw [HNode.ntype] at ht
      rw [HNode.data] at hd
      subst ht
      subst hd
      unfold processNodeChk
      rw [if_pos rfl, if_pos ⟨rfl, hjs⟩]
      rfl
    · intro ht hd hpl hjs
      rw [HNode.ntype] at ht
      rw [HNode.data] at hd
      subst ht
      subst hd
      unfold processNodeChk
      rw [if_pos rfl, if_neg (by rintro ⟨hx, -⟩; exact absurd hx (by decide)),
        if_pos ⟨rfl, hpl, hjs⟩]
      rfl
    · intro ht hd hnp hst style hres
      rw [HNode.ntype] at ht
      rw [HNode.data] at hd
      subst ht
      subst hd
      unfold processNodeChk
      rw [if_pos rfl, if_neg (by rintro ⟨hx, -⟩; exact absurd hx (by decide)),
        if_neg (by rintro ⟨-, hp, hr⟩; exact hnp ⟨hp, hr⟩),
        if_pos ⟨rfl, hst⟩, hres]
      rfl

/-- Witness for C10 at concrete input: a parentless script element under
JS removal hits the nil parent dereference. -/
theorem c10_parent_dereference_witness :
    processNodeChk (fun _ => none) ⟨true, "b"⟩ false
      (.mk .element "script" [] []) = none :=
  (c10_parent_dereference (fun _ => none) ⟨true, "b"⟩
    (.mk .element "script" [] [])).2.2.1 rfl rfl rfl

end HtmlKnitter
